import Mathlib

/-!
Verification of the rule-based CNV format detector of the `seabird`
repository (`seabird/utils.py`, function `load_rule`, together with the
rule-discovery and grammar-compilation steps it performs inline).

Embedding conventions, traced from `seabird/utils.py` lines 71-107:

* Python regular expressions are embedded as an abstract syntax tree
  `Pattern`.  The source builds its regexes by string concatenation of the
  pattern texts stored in the rule files; concatenation of regex source
  text is embedded as `Pattern.concat`, the literal wrappers
  `"(?P<header>" .. ")"` and `"(?P<data>(?:" .. ")+)"` as
  `Pattern.group "header" ..` and `Pattern.group "data" (Pattern.plus ..)`.
  The `re.VERBOSE` flag only changes how pattern *source text* is lexed
  (insignificant whitespace and comments); it has no effect at the level
  of the abstract syntax, so it does not appear in the embedding.
* `mtch` is the backtracking matcher: it returns every way a pattern can
  match a prefix of the text, in the engine's backtracking priority order
  (alternation tries the left branch first, repetition is greedy), so the
  head of the list is the match Python's engine reports.  `search`
  implements `re.search`: try each start offset left to right and stop at
  the first offset where the pattern matches (leftmost match, unanchored).
* A repetition body that matched the empty string is not repeated again,
  mirroring the engine's refusal to loop on empty matches.  Named groups
  record the substring they consumed; `MatchResult.caps` plays the role of
  `match.groupdict()` (an association list of the named groups that
  participated in the match).  For the grammars built by `load_rule` the
  added groups participate in every successful match.
* File names are embedded as `List Char` (Python `str` methods
  `startswith`, `endswith` and `sorted`'s lexicographic string comparison
  are defined below on code points, exactly as Python compares strings).
* `json.loads` and the rule files are abstracted by `FileJson`: a file is
  either `malformed` (the JSON parser raises) or a parsed record with the
  optional keys `header`, `data`, `sep` (pattern text already parsed into
  the `Pattern` AST).  Accessing a missing key raises `KeyError`,
  membership `"sep" in rule` is presence of the optional field.
* The package-resources layer is abstracted by the `rulesRoot` argument of
  `load_rule`: `none` embeds `resources.files(..)` raising
  `ModuleNotFoundError`/`FileNotFoundError`, `some entries` gives the
  directory listing (file name and parsed-JSON outcome of each entry).
-/

namespace Seabird

/-- Abstract syntax of the regular expressions occurring in `load_rule`:
empty pattern, literal character, concatenation, alternation, Kleene star,
and named capture group.  `(?:..)+` is `plus`, defined below. -/
inductive Pattern where
  | eps
  | char (c : Char)
  | concat (p q : Pattern)
  | alt (p q : Pattern)
  | star (p : Pattern)
  | group (name : String) (p : Pattern)
deriving DecidableEq

/-- One-or-more repetition `(?:p)+`, i.e. one copy of `p` followed by
`p*`; this is how the data pattern is "made repeatable" on line 97 of
`utils.py`. -/
def Pattern.plus (p : Pattern) : Pattern := .concat p (.star p)

/-- The named groups syntactically present in a pattern. -/
def Pattern.groupNames : Pattern → List String
  | .eps => []
  | .char _ => []
  | .concat p q => p.groupNames ++ q.groupNames
  | .alt p q => p.groupNames ++ q.groupNames
  | .star p => p.groupNames
  | .group n p => n :: p.groupNames

/-- Captures of the named groups that participated in a match:
group name mapped to the substring the group consumed
(the embedding of `match.groupdict()`). -/
abbrev Caps := List (String × List Char)

/-- One way a pattern can match a prefix of the text:
(consumed prefix, remaining text, captures). -/
abbrev Res := List Char × List Char × Caps

/-- All ways `p*` can match a prefix of the text, in greedy priority order
(more iterations first, the empty match last), given the matcher `mp` for
the body `p`.  An iteration that consumed nothing is not repeated (the
engine does not loop on empty matches); the fuel bounds the number of
iterations and is instantiated with more iterations than a
character-consuming loop can make. -/
def starMtch (mp : List Char → List Res) : Nat → List Char → List Res
  | 0, s => [([], s, [])]
  | f + 1, s =>
      ((mp s).flatMap fun x =>
        if x.1.isEmpty then []
        else (starMtch mp f x.2.1).map fun y => (x.1 ++ y.1, y.2.1, x.2.2 ++ y.2.2))
      ++ [([], s, [])]

/-- The backtracking matcher: all ways `p` can match a prefix of `s`, in
the engine's backtracking priority order (left alternative first,
repetition greedy).  The head of the list is the match Python reports. -/
def mtch : Pattern → List Char → List Res
  | .eps, s => [([], s, [])]
  | .char _, [] => []
  | .char c, a :: s => if a = c then [([c], s, [])] else []
  | .concat p q, s =>
      (mtch p s).flatMap fun x =>
        (mtch q x.2.1).map fun y => (x.1 ++ y.1, y.2.1, x.2.2 ++ y.2.2)
  | .alt p q, s => mtch p s ++ mtch q s
  | .star p, s => starMtch (mtch p) (s.length + 1) s
  | .group n p, s =>
      (mtch p s).map fun x => (x.1, x.2.1, (n, x.1) :: x.2.2)

/-- The match the engine reports when the pattern is anchored at the
current position: the highest-priority element of `mtch`. -/
def matchTop (p : Pattern) (s : List Char) : Option Res :=
  (mtch p s).head?

/-- Result of a successful `re.search`: the text before the match, the
matched span (`match.group(0)`), the text after it, and the named-group
captures (`match.groupdict()`). -/
structure MatchResult where
  pre : List Char
  matched : List Char
  rest : List Char
  caps : Caps
deriving DecidableEq

/-- Helper for `search`: try to match at the current position, otherwise
advance one character, accumulating the skipped text in `pre`. -/
def searchAux (p : Pattern) : List Char → List Char → Option MatchResult
  | pre, [] =>
      match matchTop p [] with
      | some x => some ⟨pre, x.1, x.2.1, x.2.2⟩
      | none => none
  | pre, c :: s =>
      match matchTop p (c :: s) with
      | some x => some ⟨pre, x.1, x.2.1, x.2.2⟩
      | none => searchAux p (pre ++ [c]) s

/-- `re.search`: unanchored leftmost match — try every start offset from
the left and stop at the first offset where the pattern matches. -/
def search (p : Pattern) (s : List Char) : Option MatchResult :=
  searchAux p [] s

/-- Python `name.startswith(pat)`. -/
def startswith : List Char → List Char → Bool
  | _, [] => true
  | [], _ :: _ => false
  | a :: as, b :: bs => a = b && startswith as bs

/-- Python `name.endswith(pat)`. -/
def endswith (name pat : List Char) : Bool :=
  startswith name.reverse pat.reverse

/-- Python string comparison `a <= b`: lexicographic on code points.
This is the comparison `sorted` uses on the rule file names. -/
def nameLe : List Char → List Char → Bool
  | [], _ => true
  | _ :: _, [] => false
  | a :: as, b :: bs => if a = b then nameLe as bs else decide (a < b)

/-- Modelled from the spec: `seabird.exceptions.CNVError` (the module
`seabird/exceptions.py` is not under `src/`), the catchable failure
condition of the detector; per the spec's error taxonomy it carries a
single outward failure tag. -/
structure CNVError where
  tag : String
deriving DecidableEq

/-- The exceptions `load_rule` can raise: `CNVError` (raised explicitly),
`json.JSONDecodeError` (from `json.loads` on a malformed file) and
`KeyError` (from `rule["header"]` / `rule["data"]` on a record missing
that key). -/
inductive PyError where
  | cnvError (e : CNVError)
  | jsonDecodeError
  | keyError (key : String)
deriving DecidableEq

/-- A parsed rule file: the record `json.loads` returns, with the three
keys `load_rule` reads.  `none` means the key is absent. -/
structure RuleDict where
  header : Option Pattern
  data : Option Pattern
  sep : Option Pattern
deriving DecidableEq

/-- Outcome of `json.loads(rule_path.read_text(..))` on one file:
either the parser raises (`malformed`, covering both invalid JSON and a
value that is not a record), or it yields a parsed record. -/
inductive FileJson where
  | malformed
  | dict (rule : RuleDict)
deriving DecidableEq

/-- A directory entry: file name and parsed-JSON outcome of its content. -/
abbrev Entry := List Char × FileJson

/-- `"cnv"`, the name lead `load_rule` line 85 filters on. -/
def cnvLead : List Char := ['c', 'n', 'v']

/-- `".json"`, the name tail `load_rule` line 85 filters on. -/
def jsonTail : List Char := ['.', 'j', 's', 'o', 'n']

/-- The ordering `sorted` applies to the discovered rule files
(lines 83-86): ascending lexicographic comparison of the names. -/
def byName (a b : Entry) : Prop := nameLe a.1 b.1 = true

instance : DecidableRel byName := fun a b => instDecidableEqBool (nameLe a.1 b.1) true

/-- Lines 83-86 of `utils.py`: keep the entries whose name starts with
`"cnv"` and ends with `".json"`, sorted ascending by name. -/
def ruleFiles (entries : List Entry) : List Entry :=
  List.insertionSort byName
    (entries.filter fun p => startswith p.1 cnvLead && endswith p.1 jsonTail)

/-- Lines 92-98 of `utils.py`: build the parsing regex of a rule.  With
`"sep" in rule` the regex is the concatenation
`rule["header"] + rule["sep"] + rule["data"]`; without it is
`"(?P<header>" + rule["header"] + ")" "(?P<data>(?:" + rule["data"] + ")+)"`.
Reading a missing key raises `KeyError`; Python evaluates `rule["header"]`
before `rule["data"]` in both branches. -/
def buildRegex (rule : RuleDict) : Except PyError Pattern :=
  match rule.sep with
  | some sp =>
      match rule.header with
      | none => .error (.keyError "header")
      | some hp =>
          match rule.data with
          | none => .error (.keyError "data")
          | some dp => .ok (.concat (.concat hp sp) dp)
  | none =>
      match rule.header with
      | none => .error (.keyError "header")
      | some hp =>
          match rule.data with
          | none => .error (.keyError "data")
          | some dp =>
              .ok (.concat (.group "header" hp) (.group "data" (Pattern.plus dp)))

/-- Lines 88-107 of `utils.py`: the detection loop.  For each rule file in
order: parse it (a malformed file raises out of the loop), build its
regex, `search` it against the raw text; on the first match return the
rule record together with `match.groupdict()`; if the loop exhausts the
files raise `CNVError(tag="noparsingrule")`. -/
def tryRules (raw : List Char) : List Entry → Except PyError (RuleDict × Caps)
  | [] => .error (.cnvError ⟨"noparsingrule"⟩)
  | (_, fj) :: rest =>
      match fj with
      | .malformed => .error .jsonDecodeError
      | .dict rule =>
          match buildRegex rule with
          | .error e => .error e
          | .ok regex =>
              match search regex raw with
              | some m => .ok (rule, m.caps)
              | none => tryRules raw rest

/-- Lines 71-107 of `utils.py`, `load_rule`.  `rulesRoot = none` embeds
`resources.files("seabird")` raising (storage location unavailable, lines
78-81, answered with `CNVError(tag="noparsingrule")`); otherwise the
discovered entries are filtered, sorted and tried in order. -/
def load_rule (rulesRoot : Option (List Entry)) (raw_text : List Char) :
    Except PyError (RuleDict × Caps) :=
  match rulesRoot with
  | none => .error (.cnvError ⟨"noparsingrule"⟩)
  | some entries => tryRules raw_text (ruleFiles entries)

/-- Entry `e` is a well-formed rule whose compiled grammar finds no match
in `raw`: the case in which the loop of `tryRules` moves past `e`. -/
def FailsToMatch (raw : List Char) (e : Entry) : Prop :=
  ∃ rule regex, e.2 = .dict rule ∧ buildRegex rule = .ok regex ∧
    search regex raw = none

/-- Entry content that the spec calls a malformed record: invalid as
structured data, or missing the required `header` or `data` field. -/
def BadRule (fj : FileJson) : Prop :=
  fj = .malformed ∨ ∃ rule, fj = .dict rule ∧ (rule.header = none ∨ rule.data = none)

instance exceptDecEq {ε α : Type} [DecidableEq ε] [DecidableEq α] :
    DecidableEq (Except ε α) := fun a b =>
  match a, b with
  | .error x, .error y =>
      if h : x = y then isTrue (congrArg Except.error h)
      else isFalse fun hc => h (Except.error.inj hc)
  | .error _, .ok _ => isFalse fun hc => Except.noConfusion hc
  | .ok _, .error _ => isFalse fun hc => Except.noConfusion hc
  | .ok x, .ok y =>
      if h : x = y then isTrue (congrArg Except.ok h)
      else isFalse fun hc => h (Except.ok.inj hc)

/-- The file name `"cnv01.json"`, used in concrete instantiations. -/
def cnv01name : List Char := ['c', 'n', 'v', '0', '1', '.', 'j', 's', 'o', 'n']

/-- The file name `"cnv02.json"`, used in concrete instantiations. -/
def cnv02name : List Char := ['c', 'n', 'v', '0', '2', '.', 'j', 's', 'o', 'n']

/-- The file name `"cnv99.json"`, used in concrete instantiations. -/
def cnv99name : List Char := ['c', 'n', 'v', '9', '9', '.', 'j', 's', 'o', 'n']

/-- The companion non-rule file name `"refnames.json"`. -/
def refnamesName : List Char := ['r', 'e', 'f', 'n', 'a', 'm', 'e', 's', '.', 'j', 's', 'o', 'n']

/-! ### Basic facts about the matcher -/

theorem mem_mtch_concat {p q : Pattern} {s : List Char} {x : Res} :
    x ∈ mtch (.concat p q) s ↔
      ∃ a, a ∈ mtch p s ∧ ∃ b, b ∈ mtch q a.2.1 ∧
        (a.1 ++ b.1, b.2.1, a.2.2 ++ b.2.2) = x := by
  simp [mtch]

theorem mem_mtch_group {n : String} {p : Pattern} {s : List Char} {x : Res} :
    x ∈ mtch (.group n p) s ↔
      ∃ a, a ∈ mtch p s ∧ (a.1, a.2.1, (n, a.1) :: a.2.2) = x := by
  simp [mtch]

/-- Every way `p*` matches consumes a prefix: text = consumed ++ rest. -/
theorem starMtch_consumed {mp : List Char → List Res}
    (hmp : ∀ s x, x ∈ mp s → s = x.1 ++ x.2.1) :
    ∀ f s x, x ∈ starMtch mp f s → s = x.1 ++ x.2.1 := by
  intro f
  induction f with
  | zero =>
    intro s x hx
    simp [starMtch] at hx
    simp [hx]
  | succ f ih =>
    intro s x hx
    simp only [starMtch, List.mem_append, List.mem_flatMap, List.mem_singleton] at hx
    rcases hx with ⟨a, ha, hx⟩ | hx
    · by_cases he : a.1.isEmpty
      · simp [he] at hx
      · rw [if_neg he, List.mem_map] at hx
        obtain ⟨b, hb, rfl⟩ := hx
        have h1 := hmp s a ha
        have h2 := ih a.2.1 b hb
        simp only [h1, h2, List.append_assoc]
    · simp [hx]

/-- Every way a pattern matches consumes a prefix: text = consumed ++ rest. -/
theorem mtch_consumed : ∀ (p : Pattern) (s : List Char) (x : Res),
    x ∈ mtch p s → s = x.1 ++ x.2.1 := by
  intro p
  induction p with
  | eps =>
    intro s x hx
    simp [mtch] at hx
    simp [hx]
  | char c =>
    intro s x hx
    cases s with
    | nil => simp [mtch] at hx
    | cons a s =>
      by_cases hac : a = c
      · simp [mtch, hac] at hx
        simp [hx, hac]
      · simp [mtch, hac] at hx
  | concat p q ihp ihq =>
    intro s x hx
    rw [mem_mtch_concat] at hx
    obtain ⟨a, ha, b, hb, rfl⟩ := hx
    have h1 := ihp s a ha
    have h2 := ihq a.2.1 b hb
    simp only [h1, h2, List.append_assoc]
  | alt p q ihp ihq =>
    intro s x hx
    simp only [mtch, List.mem_append] at hx
    rcases hx with hx | hx
    · exact ihp s x hx
    · exact ihq s x hx
  | star p ihp =>
    intro s x hx
    exact starMtch_consumed ihp _ s x hx
  | group n p ihp =>
    intro s x hx
    rw [mem_mtch_group] at hx
    obtain ⟨a, ha, rfl⟩ := hx
    exact ihp s a ha

/-- Captures produced by `p*` carry only group names of the body. -/
theorem starMtch_caps_names {mp : List Char → List Res} {names : List String}
    (hmp : ∀ s x, x ∈ mp s → ∀ nv ∈ x.2.2, nv.1 ∈ names) :
    ∀ f s x, x ∈ starMtch mp f s → ∀ nv ∈ x.2.2, nv.1 ∈ names := by
  intro f
  induction f with
  | zero =>
    intro s x hx nv hnv
    simp [starMtch] at hx
    simp [hx] at hnv
  | succ f ih =>
    intro s x hx nv hnv
    simp only [starMtch, List.mem_append, List.mem_flatMap, List.mem_singleton] at hx
    rcases hx with ⟨a, ha, hx⟩ | hx
    · by_cases he : a.1.isEmpty
      · simp [he] at hx
      · rw [if_neg he, List.mem_map] at hx
        obtain ⟨b, hb, rfl⟩ := hx
        simp only [List.mem_append] at hnv
        rcases hnv with hnv | hnv
        · exact hmp s a ha nv hnv
        · exact ih a.2.1 b hb nv hnv
    · simp [hx] at hnv

/-- Captures carry only group names syntactically present in the pattern. -/
theorem mtch_caps_names : ∀ (p : Pattern) (s : List Char) (x : Res),
    x ∈ mtch p s → ∀ nv ∈ x.2.2, nv.1 ∈ p.groupNames := by
  intro p
  induction p with
  | eps =>
    intro s x hx nv hnv
    simp [mtch] at hx
    simp [hx] at hnv
  | char c =>
    intro s x hx nv hnv
    cases s with
    | nil => simp [mtch] at hx
    | cons a s =>
      by_cases hac : a = c
      · simp [mtch, hac] at hx
        simp [hx] at hnv
      · simp [mtch, hac] at hx
  | concat p q ihp ihq =>
    intro s x hx nv hnv
    rw [mem_mtch_concat] at hx
    obtain ⟨a, ha, b, hb, rfl⟩ := hx
    simp only [List.mem_append] at hnv
    simp only [Pattern.groupNames, List.mem_append]
    rcases hnv with hnv | hnv
    · exact Or.inl (ihp s a ha nv hnv)
    · exact Or.inr (ihq a.2.1 b hb nv hnv)
  | alt p q ihp ihq =>
    intro s x hx nv hnv
    simp only [mtch, List.mem_append] at hx
    simp only [Pattern.groupNames, List.mem_append]
    rcases hx with hx | hx
    · exact Or.inl (ihp s x hx nv hnv)
    · exact Or.inr (ihq s x hx nv hnv)
  | star p ihp =>
    intro s x hx nv hnv
    exact starMtch_caps_names ihp _ s x hx nv hnv
  | group n p ihp =>
    intro s x hx nv hnv
    rw [mem_mtch_group] at hx
    obtain ⟨a, ha, rfl⟩ := hx
    simp only [Pattern.groupNames, List.mem_cons]
    rcases List.mem_cons.mp hnv with hnv | hnv
    · exact Or.inl (by simp [hnv])
    · exact Or.inr (ihp s a ha nv hnv)

/-- Association-list lookup at a head entry with the key looked for. -/
theorem lookup_cons_self {k : String} {v : List Char} {t : Caps} :
    List.lookup k ((k, v) :: t) = some v := by
  simp [List.lookup]

/-- Association-list lookup walks past a head entry with another key. -/
theorem lookup_cons_ne {k n : String} {v : List Char} {t : Caps}
    (h : (k == n) = false) :
    List.lookup k ((n, v) :: t) = List.lookup k t := by
  simp [List.lookup, h]

/-- Looking a key up past an association-list block none of whose keys is
that key. -/
theorem lookup_append_of_ne {k : String} {c : Caps}
    (h : ∀ nv ∈ c, nv.1 ≠ k) (rest : Caps) :
    List.lookup k (c ++ rest) = List.lookup k rest := by
  induction c with
  | nil => rfl
  | cons a c ih =>
    have hk : (k == a.1) = false := by
      have := h a (List.mem_cons_self a c)
      simp [Ne.symm this]
    simp only [List.cons_append, List.lookup, hk]
    exact ih fun nv hnv => h nv (List.mem_cons_of_mem a hnv)

/-! ### Facts about `search` -/

/-- If the pattern matches when anchored at any offset of the text, the
unanchored `search` finds a match (at that offset or an earlier one). -/
theorem searchAux_isSome_of_matchTop (p : Pattern) :
    ∀ (s : List Char) (i : Nat) (pre : List Char),
      matchTop p (s.drop i) ≠ none → (searchAux p pre s).isSome := by
  intro s
  induction s with
  | nil =>
    intro i pre h
    simp only [List.drop_nil] at h
    simp only [searchAux]
    cases hm : matchTop p [] with
    | none => exact absurd hm h
    | some x => simp
  | cons c s ih =>
    intro i pre h
    simp only [searchAux]
    cases hm : matchTop p (c :: s) with
    | some x => simp
    | none =>
      cases i with
      | zero =>
        rw [List.drop_zero] at h
        exact absurd hm h
      | succ j =>
        rw [List.drop_succ_cons] at h
        exact ih j (pre ++ [c]) h

/-- What a successful `searchAux` tells us: the text splits as skipped
noise, matched span and remainder, and the span is the engine's anchored
match at that offset. -/
theorem searchAux_sound (p : Pattern) :
    ∀ (s pre : List Char) (m : MatchResult), searchAux p pre s = some m →
      ∃ noise, s = noise ++ m.matched ++ m.rest ∧ m.pre = pre ++ noise ∧
        matchTop p (m.matched ++ m.rest) = some (m.matched, m.rest, m.caps) := by
  intro s
  induction s with
  | nil =>
    intro pre m hm
    simp only [searchAux] at hm
    cases hx : matchTop p [] with
    | none => rw [hx] at hm; exact absurd hm (by simp)
    | some x =>
      rw [hx] at hm
      have hmem : x ∈ mtch p [] := List.mem_of_mem_head? hx
      have hsplit := mtch_consumed p [] x hmem
      obtain ⟨rfl⟩ := Option.some.inj hm
      refine ⟨[], ?_, by simp, ?_⟩
      · simpa using hsplit
      · simpa [← hsplit] using hx
  | cons c s ih =>
    intro pre m hm
    simp only [searchAux] at hm
    cases hx : matchTop p (c :: s) with
    | some x =>
      rw [hx] at hm
      have hmem : x ∈ mtch p (c :: s) := List.mem_of_mem_head? hx
      have hsplit := mtch_consumed p (c :: s) x hmem
      obtain ⟨rfl⟩ := Option.some.inj hm
      refine ⟨[], ?_, by simp, ?_⟩
      · simpa using hsplit
      · simpa [← hsplit] using hx
    | none =>
      rw [hx] at hm
      obtain ⟨noise, h1, h2, h3⟩ := ih (pre ++ [c]) m hm
      exact ⟨c :: noise, by simp [h1], by simp [h2], h3⟩

/-- `search` splits the input into the text before the match, the matched
span and the rest, and the span is the anchored match at its offset. -/
theorem search_sound {p : Pattern} {s : List Char} {m : MatchResult}
    (h : search p s = some m) :
    s = m.pre ++ m.matched ++ m.rest ∧
      matchTop p (m.matched ++ m.rest) = some (m.matched, m.rest, m.caps) := by
  obtain ⟨noise, h1, h2, h3⟩ := searchAux_sound p s [] m h
  simp only [List.nil_append] at h2
  exact ⟨h2 ▸ h1, h3⟩

/-- `search` succeeds whenever the pattern matches anchored at some
offset: matching is not anchored to the start of the input. -/
theorem search_isSome_of_offset {p : Pattern} {s : List Char} (i : Nat)
    (h : matchTop p (s.drop i) ≠ none) : (search p s).isSome :=
  searchAux_isSome_of_matchTop p s i [] h

/-! ### Facts about the detection loop -/

/-- A run of entries that all parse and fail to match is skipped by the
loop. -/
theorem tryRules_append_of_noMatch {raw : List Char} :
    ∀ (pre : List Entry), (∀ e ∈ pre, FailsToMatch raw e) →
      ∀ l, tryRules raw (pre ++ l) = tryRules raw l := by
  intro pre
  induction pre with
  | nil => intro _ l; rfl
  | cons e pre ih =>
    intro h l
    obtain ⟨rule, regex, hdict, hregex, hsearch⟩ := h e (List.mem_cons_self e pre)
    obtain ⟨name, fj⟩ := e
    simp only at hdict
    subst hdict
    simp only [List.cons_append, tryRules, hregex, hsearch]
    exact ih (fun e he => h e (List.mem_cons_of_mem _ he)) l

/-- If every entry of the list parses and fails to match, the loop
exhausts the list and raises `CNVError(tag="noparsingrule")`. -/
theorem tryRules_noMatch {raw : List Char} :
    ∀ l, (∀ e ∈ l, FailsToMatch raw e) →
      tryRules raw l = .error (.cnvError ⟨"noparsingrule"⟩) := by
  intro l h
  have := tryRules_append_of_noMatch l h []
  simpa using this

/-! ### Facts about rule discovery and ordering -/

/-- The lexicographic comparison on names is total. -/
theorem nameLe_total : ∀ a b : List Char, nameLe a b = true ∨ nameLe b a = true := by
  intro a
  induction a with
  | nil => intro b; exact Or.inl rfl
  | cons x as ih =>
    intro b
    cases b with
    | nil => exact Or.inr rfl
    | cons y bs =>
      by_cases hxy : x = y
      · subst hxy
        rcases ih bs with h | h
        · exact Or.inl (by simp [nameLe, h])
        · exact Or.inr (by simp [nameLe, h])
      · rcases lt_or_gt_of_ne hxy with h | h
        · exact Or.inl (by simp [nameLe, hxy, h])
        · exact Or.inr (by simp [nameLe, Ne.symm hxy, h])

/-- The lexicographic comparison on names is transitive. -/
theorem nameLe_trans : ∀ a b c : List Char,
    nameLe a b = true → nameLe b c = true → nameLe a c = true := by
  intro a
  induction a with
  | nil => intro b c _ _; rfl
  | cons x as ih =>
    intro b c h1 h2
    cases b with
    | nil => simp [nameLe] at h1
    | cons y bs =>
      cases c with
      | nil => simp [nameLe] at h2
      | cons z cs =>
        by_cases hxy : x = y <;> by_cases hyz : y = z
        · subst hxy; subst hyz
          simp only [nameLe, if_pos rfl] at h1 h2 ⊢
          exact ih bs cs h1 h2
        · subst hxy
          simp only [nameLe, if_pos rfl, if_neg hyz] at h2 ⊢
          exact h2
        · subst hyz
          simp only [nameLe, if_neg hxy] at h1 ⊢
          exact h1
        · simp only [nameLe, if_neg hxy] at h1
          simp only [nameLe, if_neg hyz] at h2
          have hxz : x < z := lt_trans (of_decide_eq_true h1) (of_decide_eq_true h2)
          simp [nameLe, ne_of_lt hxz, hxz]

instance : IsTotal Entry byName := ⟨fun a b => nameLe_total a.1 b.1⟩

instance : IsTrans Entry byName := ⟨fun a b c => nameLe_trans a.1 b.1 c.1⟩

/-- Membership in the discovered rule list: exactly the entries whose
name starts with `"cnv"` and ends with `".json"`. -/
theorem mem_ruleFiles {entries : List Entry} {e : Entry} :
    e ∈ ruleFiles entries ↔
      e ∈ entries ∧ (startswith e.1 cnvLead && endswith e.1 jsonTail) = true := by
  unfold ruleFiles
  rw [List.mem_insertionSort, List.mem_filter]

/-- The discovered rule list is sorted ascending by name. -/
theorem ruleFiles_sorted (entries : List Entry) :
    List.Sorted byName (ruleFiles entries) :=
  List.sorted_insertionSort byName _

/-! ### Structure of matches of the compiled no-separator grammar -/

/-- Unfolding `load_rule` when the rule storage is available. -/
theorem load_rule_some (entries : List Entry) (raw : List Char) :
    load_rule (some entries) raw = tryRules raw (ruleFiles entries) := rfl

/-- A match of the no-separator grammar
`(?P<header>..)(?P<data>(?:..)+)` captures a `"header"` region and,
provided the header pattern does not itself define a group named
`"data"`, a `"data"` region, and the two captures are adjacent: together
they are exactly the matched span, inside the input right after the
skipped noise. -/
theorem search_nonsep_lookup {hp dp : Pattern} {raw : List Char} {m : MatchResult}
    (hm : search (.concat (.group "header" hp) (.group "data" (Pattern.plus dp))) raw
      = some m)
    (hdup : "data" ∉ hp.groupNames) :
    ∃ u v, List.lookup "header" m.caps = some u ∧
      List.lookup "data" m.caps = some v ∧
      m.matched = u ++ v ∧ raw = m.pre ++ (u ++ v) ++ m.rest := by
  obtain ⟨hsplit, htop⟩ := search_sound hm
  have hmem : (m.matched, m.rest, m.caps)
      ∈ mtch (.concat (.group "header" hp) (.group "data" (Pattern.plus dp)))
        (m.matched ++ m.rest) :=
    List.mem_of_mem_head? htop
  rw [mem_mtch_concat] at hmem
  obtain ⟨a, ha, b, hb, heq⟩ := hmem
  rw [mem_mtch_group] at ha
  rw [mem_mtch_group] at hb
  obtain ⟨a0, ha0, rfl⟩ := ha
  obtain ⟨b0, hb0, rfl⟩ := hb
  simp only [Prod.mk.injEq] at heq
  obtain ⟨hmat, hrest, hcaps⟩ := heq
  refine ⟨a0.1, b0.1, ?_, ?_, hmat.symm, ?_⟩
  · rw [← hcaps]
    exact lookup_cons_self
  · rw [← hcaps]
    show List.lookup "data"
      (("header", a0.1) :: (a0.2.2 ++ ("data", b0.1) :: b0.2.2)) = some b0.1
    rw [lookup_cons_ne (by decide), lookup_append_of_ne]
    · exact lookup_cons_self
    · intro nv hnv hcontra
      have := mtch_caps_names hp _ a0 ha0 nv hnv
      rw [hcontra] at this
      exact hdup this
  · rw [hmat, hsplit]

/-- Inversion of a successful run of the detection loop: the result is
the parsed record of one of the listed files, paired with the
`groupdict` of the match its compiled grammar found in the text. -/
theorem tryRules_ok_inversion {raw : List Char} :
    ∀ (l : List Entry) (rule : RuleDict) (caps : Caps),
      tryRules raw l = .ok (rule, caps) →
      ∃ name regex m, (name, FileJson.dict rule) ∈ l ∧
        buildRegex rule = .ok regex ∧ search regex raw = some m ∧ caps = m.caps := by
  intro l
  induction l with
  | nil =>
    intro rule caps h
    simp [tryRules] at h
  | cons e rest ih =>
    intro rule caps h
    obtain ⟨name, fj⟩ := e
    cases fj with
    | malformed => simp [tryRules] at h
    | dict d =>
      rw [show tryRules raw ((name, FileJson.dict d) :: rest)
          = (match buildRegex d with
             | .error e => .error e
             | .ok regex =>
               match search regex raw with
               | some m => .ok (d, m.caps)
               | none => tryRules raw rest) from rfl] at h
      cases hbr : buildRegex d with
      | error e =>
        simp only [hbr] at h
        exact absurd h (by simp)
      | ok rx =>
        simp only [hbr] at h
        cases hs : search rx raw with
        | some m =>
          simp only [hs, Except.ok.injEq, Prod.mk.injEq] at h
          obtain ⟨rfl, rfl⟩ := h
          exact ⟨name, rx, m, List.mem_cons_self _ _, hbr, hs, rfl⟩
        | none =>
          simp only [hs] at h
          obtain ⟨name2, rx2, m2, hmem, hbr2, hs2, hcaps⟩ := ih rule caps h
          exact ⟨name2, rx2, m2, List.mem_cons_of_mem _ hmem, hbr2, hs2, hcaps⟩

/-- One step of the loop on a rule that parses, compiles and matches. -/
theorem tryRules_cons_match {raw : List Char} {name : List Char} {rule : RuleDict}
    {rx : Pattern} {m : MatchResult} (rest : List Entry)
    (hregex : buildRegex rule = .ok rx) (hmatch : search rx raw = some m) :
    tryRules raw ((name, .dict rule) :: rest) = .ok (rule, m.caps) := by
  rw [show tryRules raw ((name, FileJson.dict rule) :: rest)
      = (match buildRegex rule with
         | .error e => .error e
         | .ok regex =>
           match search regex raw with
           | some m => .ok (rule, m.caps)
           | none => tryRules raw rest) from rfl]
  simp only [hregex, hmatch]

/-! ### The claims -/

/-- C1 counterexample: when the rule storage location cannot be found or
opened (rulesRoot unavailable) the code raises `CNVError` with tag
`"noparsingrule"` — the very same failure value as the Detector-level
no-rule-matched condition (here: an empty rule set).  The two failures
carry the same tag, so they are not distinct. -/
theorem C1_counterexample :
    load_rule none ['x'] = .error (.cnvError ⟨"noparsingrule"⟩) ∧
    load_rule (some []) ['x'] = .error (.cnvError ⟨"noparsingrule"⟩) ∧
    load_rule none ['x'] = load_rule (some []) ['x'] :=
  ⟨rfl, rfl, rfl⟩

/-- C1 (amended): if the rule storage location cannot be found or opened,
`load_rule` fails with `CNVError` tagged `"noparsingrule"` — the same tag
as the Detector-level no-rule-matched condition, so a caller cannot
distinguish the two failures by their tag. -/
theorem C1_unavailable_source_tag (raw raw2 : List Char) (entries : List Entry)
    (hall : ∀ e ∈ ruleFiles entries, FailsToMatch raw2 e) :
    load_rule none raw = .error (.cnvError ⟨"noparsingrule"⟩) ∧
    load_rule none raw = load_rule (some entries) raw2 := by
  have h2 : load_rule (some entries) raw2 = .error (.cnvError ⟨"noparsingrule"⟩) := by
    rw [load_rule_some]
    exact tryRules_noMatch _ hall
  exact ⟨rfl, h2.symm⟩

/-- C1 witness for the amended claim, at a concrete input. -/
theorem C1_unavailable_source_tag_witness :
    load_rule none ['a'] = .error (.cnvError ⟨"noparsingrule"⟩) ∧
    load_rule none ['a'] = load_rule (some []) ['b'] :=
  C1_unavailable_source_tag ['a'] ['b'] [] (by
    intro e he
    rw [mem_ruleFiles] at he
    exact absurd he.1 (List.not_mem_nil e))

/-- C2: detection is first-match-wins.  If, in the discovered order, every
rule before a given rule fails to match and that rule's compiled grammar
matches, detection returns that rule's record and captures — whatever
rules follow it (in particular any later rule that would also match is
never evaluated, and its result is never returned). -/
theorem C2_first_match_wins (entries : List Entry) (raw : List Char)
    (pre rest : List Entry) (name1 : List Char) (rule1 : RuleDict)
    (rx1 : Pattern) (m : MatchResult)
    (horder : ruleFiles entries = pre ++ (name1, .dict rule1) :: rest)
    (hpre : ∀ e ∈ pre, FailsToMatch raw e)
    (hregex : buildRegex rule1 = .ok rx1)
    (hmatch : search rx1 raw = some m) :
    load_rule (some entries) raw = .ok (rule1, m.caps) := by
  rw [load_rule_some, horder, tryRules_append_of_noMatch pre hpre]
  exact tryRules_cons_match rest hregex hmatch

/-- C2 witness: two overlapping rules that both match the input
`"HD"`; detection returns the result of `cnv01.json`, the rule ordered
first, never that of `cnv02.json`. -/
theorem C2_first_match_wins_witness :
    load_rule (some [(cnv02name, .dict ⟨some .eps, some (.char 'D'), none⟩),
                     (cnv01name, .dict ⟨some (.char 'H'), some (.char 'D'), none⟩)])
        ['H', 'D']
      = .ok (⟨some (.char 'H'), some (.char 'D'), none⟩,
             [("header", ['H']), ("data", ['D'])]) :=
  C2_first_match_wins _ _ [] [(cnv02name, .dict ⟨some .eps, some (.char 'D'), none⟩)]
    cnv01name ⟨some (.char 'H'), some (.char 'D'), none⟩ _
    ⟨[], ['H', 'D'], [], [("header", ['H']), ("data", ['D'])]⟩
    (by decide) (by intro e he; exact absurd he (List.not_mem_nil e))
    rfl (by decide)

/-- C3: if no discovered rule matches — including when the discovered
rule list is empty — detection fails with `CNVError` tagged
`"noparsingrule"`, and the empty-rule-set failure is the very same value
as the nothing-fits failure. -/
theorem C3_exhaustion_uniform (entries : List Entry) (raw raw2 : List Char)
    (hall : ∀ e ∈ ruleFiles entries, FailsToMatch raw e) :
    load_rule (some entries) raw = .error (.cnvError ⟨"noparsingrule"⟩) ∧
    load_rule (some []) raw2 = .error (.cnvError ⟨"noparsingrule"⟩) ∧
    load_rule (some entries) raw = load_rule (some []) raw2 := by
  have h1 : load_rule (some entries) raw = .error (.cnvError ⟨"noparsingrule"⟩) := by
    rw [load_rule_some]
    exact tryRules_noMatch _ hall
  exact ⟨h1, rfl, h1⟩

/-- C3 witness: a rule set whose single rule does not fit the input
`"x"`, compared against the empty rule set. -/
theorem C3_exhaustion_uniform_witness :
    load_rule (some [(cnv01name, .dict ⟨some (.char 'Z'), some (.char 'Z'), none⟩)]) ['x']
      = .error (.cnvError ⟨"noparsingrule"⟩) ∧
    load_rule (some []) ['y'] = .error (.cnvError ⟨"noparsingrule"⟩) ∧
    load_rule (some [(cnv01name, .dict ⟨some (.char 'Z'), some (.char 'Z'), none⟩)]) ['x']
      = load_rule (some []) ['y'] :=
  C3_exhaustion_uniform _ ['x'] ['y'] (by
    intro e he
    rw [mem_ruleFiles] at he
    rcases List.mem_singleton.mp he.1 with rfl
    exact ⟨⟨some (.char 'Z'), some (.char 'Z'), none⟩, _, rfl, rfl, by decide⟩)

/-- C4 counterexample: a rule set containing a malformed record
(`cnv02.json`) where the load does NOT fail: the earlier rule
`cnv01.json` matches the input, the loop returns before the malformed
record is ever read, and detection succeeds. -/
theorem C4_counterexample :
    (cnv02name, FileJson.malformed) ∈
      [(cnv01name, FileJson.dict ⟨some (.char 'H'), some (.char 'D'), none⟩),
       (cnv02name, FileJson.malformed)] ∧
    load_rule
      (some [(cnv01name, FileJson.dict ⟨some (.char 'H'), some (.char 'D'), none⟩),
             (cnv02name, FileJson.malformed)]) ['H', 'D']
      = .ok (⟨some (.char 'H'), some (.char 'D'), none⟩,
             [("header", ['H']), ("data", ['D'])]) :=
  ⟨by decide, by decide⟩

/-- C4 (amended): loading is strict only up to the first match.  A
malformed record, or one missing the required `header` or `data` field,
makes the whole load fail with the corresponding parse error whenever it
is reached, i.e. whenever every rule ordered before it parses and fails
to match; it is never silently dropped in that case.  (A malformed record
ordered after a rule that matches the input is never examined, as the
counterexample shows.) -/
theorem C4_strict_until_match (entries : List Entry) (raw : List Char)
    (pre post : List Entry) (name : List Char) (fj : FileJson)
    (horder : ruleFiles entries = pre ++ (name, fj) :: post)
    (hpre : ∀ e ∈ pre, FailsToMatch raw e)
    (hbad : BadRule fj) :
    ∃ err, load_rule (some entries) raw = .error err ∧
      (err = .jsonDecodeError ∨ err = .keyError "header" ∨ err = .keyError "data") := by
  rw [load_rule_some, horder, tryRules_append_of_noMatch pre hpre]
  rcases hbad with rfl | ⟨rule, rfl, hmiss⟩
  · exact ⟨.jsonDecodeError, rfl, Or.inl rfl⟩
  · rcases hmiss with hh | hd
    · refine ⟨.keyError "header", ?_, Or.inr (Or.inl rfl)⟩
      cases hsep : rule.sep <;> simp [tryRules, buildRegex, hsep, hh]
    · cases hh : rule.header with
      | none =>
        refine ⟨.keyError "header", ?_, Or.inr (Or.inl rfl)⟩
        cases hsep : rule.sep <;> simp [tryRules, buildRegex, hsep, hh]
      | some hp =>
        refine ⟨.keyError "data", ?_, Or.inr (Or.inr rfl)⟩
        cases hsep : rule.sep <;> simp [tryRules, buildRegex, hsep, hh, hd]

/-- C4 witness for the amended claim: a record missing the `data` field,
reached because the rule before it does not match, aborts the load. -/
theorem C4_strict_until_match_witness :
    (load_rule (some [(cnv01name, .dict ⟨some (.char 'Z'), some (.char 'Z'), none⟩),
                      (cnv02name, .dict ⟨some (.char 'H'), none, none⟩)]) ['x']
      = .error .jsonDecodeError) ∨
    (load_rule (some [(cnv01name, .dict ⟨some (.char 'Z'), some (.char 'Z'), none⟩),
                      (cnv02name, .dict ⟨some (.char 'H'), none, none⟩)]) ['x']
      = .error (.keyError "header")) ∨
    (load_rule (some [(cnv01name, .dict ⟨some (.char 'Z'), some (.char 'Z'), none⟩),
                      (cnv02name, .dict ⟨some (.char 'H'), none, none⟩)]) ['x']
      = .error (.keyError "data")) := by
  obtain ⟨err, herr, hcase⟩ := C4_strict_until_match
    [(cnv01name, .dict ⟨some (.char 'Z'), some (.char 'Z'), none⟩),
     (cnv02name, .dict ⟨some (.char 'H'), none, none⟩)] ['x']
    [(cnv01name, .dict ⟨some (.char 'Z'), some (.char 'Z'), none⟩)] []
    cnv02name (.dict ⟨some (.char 'H'), none, none⟩)
    (by decide)
    (by
      intro e he
      rcases List.mem_singleton.mp he with rfl
      exact ⟨⟨some (.char 'Z'), some (.char 'Z'), none⟩, _, rfl, rfl, by decide⟩)
    (Or.inr ⟨⟨some (.char 'H'), none, none⟩, rfl, Or.inr rfl⟩)
  rcases hcase with rfl | rfl | rfl
  · exact Or.inl herr
  · exact Or.inr (Or.inl herr)
  · exact Or.inr (Or.inr herr)

/-- C5: grammar compilation has exactly two modes.  With a `sep` field
the compiled grammar is the concatenation header + separator + data (no
groups added); without, the header pattern is wrapped in the named group
`"header"` and the data pattern — made repeatable one-or-more times by
`plus` — in the named group `"data"`.  The last conjunct spells out the
one-or-more semantics of `plus`: every match of it is one match of the
data pattern followed by a star match. -/
theorem C5_two_compilation_modes (rule : RuleDict) (hp dp : Pattern)
    (hh : rule.header = some hp) (hd : rule.data = some dp) :
    (∀ sp, rule.sep = some sp →
        buildRegex rule = .ok (.concat (.concat hp sp) dp)) ∧
    (rule.sep = none →
        buildRegex rule = .ok (.concat (.group "header" hp)
          (.group "data" (Pattern.plus dp)))) ∧
    (∀ s x, x ∈ mtch (Pattern.plus dp) s →
        ∃ a, a ∈ mtch dp s ∧ ∃ b, b ∈ mtch (.star dp) a.2.1 ∧
          (a.1 ++ b.1, b.2.1, a.2.2 ++ b.2.2) = x) := by
  refine ⟨?_, ?_, ?_⟩
  · intro sp hsep
    simp [buildRegex, hsep, hh, hd]
  · intro hsep
    simp [buildRegex, hsep, hh, hd]
  · intro s x hx
    exact mem_mtch_concat.mp hx

/-- C5 witness: both compilation modes at concrete rules. -/
theorem C5_two_compilation_modes_witness :
    buildRegex ⟨some (.char 'H'), some (.char 'D'), some (.char '|')⟩
      = .ok (.concat (.concat (.char 'H') (.char '|')) (.char 'D')) ∧
    buildRegex ⟨some (.char 'H'), some (.char 'D'), none⟩
      = .ok (.concat (.group "header" (.char 'H'))
          (.group "data" (Pattern.plus (.char 'D')))) :=
  ⟨(C5_two_compilation_modes ⟨some (.char 'H'), some (.char 'D'), some (.char '|')⟩
      (.char 'H') (.char 'D') rfl rfl).1 (.char '|') rfl,
   (C5_two_compilation_modes ⟨some (.char 'H'), some (.char 'D'), none⟩
      (.char 'H') (.char 'D') rfl rfl).2.1 rfl⟩

/-- C6 counterexample: a rule WITH a `sep` field compiles to a grammar
with no named groups at all; it matches `"H|D"`, detection succeeds with
an empty capture mapping — no `"header"` or `"data"` region — and no
load-time error is raised.  So not every compiled rule exposes the two
named regions, and the missing shape does not surface as an error. -/
theorem C6_counterexample :
    load_rule (some [(cnv01name,
        .dict ⟨some (.char 'H'), some (.char 'D'), some (.char '|')⟩)]) ['H', '|', 'D']
      = .ok (⟨some (.char 'H'), some (.char 'D'), some (.char '|')⟩, []) ∧
    List.lookup "header" ([] : Caps) = none ∧
    List.lookup "data" ([] : Caps) = none :=
  ⟨by decide, rfl, rfl⟩

/-- C6 (amended): only rules compiled WITHOUT `sep` are guaranteed to
expose the two named capture regions `"header"` and `"data"` (provided
the rule's own header pattern does not reuse the name `"data"`): every
successful match of such a compiled grammar carries both captures.  A
rule with `sep` gets no implicitly added named regions and no shape check
is performed at load time, as the counterexample shows. -/
theorem C6_nonsep_capture_regions (rule : RuleDict) (hp dp rx : Pattern)
    (raw : List Char) (m : MatchResult)
    (hh : rule.header = some hp) (hd : rule.data = some dp)
    (hsep : rule.sep = none)
    (hrx : buildRegex rule = .ok rx) (hm : search rx raw = some m)
    (hdup : "data" ∉ hp.groupNames) :
    (List.lookup "header" m.caps).isSome = true ∧
    (List.lookup "data" m.caps).isSome = true := by
  have hrx2 : rx = .concat (.group "header" hp) (.group "data" (Pattern.plus dp)) := by
    simp [buildRegex, hsep, hh, hd] at hrx
    exact hrx.symm
  subst hrx2
  obtain ⟨u, v, h1, h2, -, -⟩ := search_nonsep_lookup hm hdup
  rw [h1, h2]
  exact ⟨rfl, rfl⟩

/-- C6 witness for the amended claim, at a concrete no-`sep` rule. -/
theorem C6_nonsep_capture_regions_witness :
    (List.lookup "header" [("header", ['H']), ("data", ['D', 'D'])]).isSome = true ∧
    (List.lookup "data" [("header", ['H']), ("data", ['D', 'D'])]).isSome = true :=
  C6_nonsep_capture_regions ⟨some (.char 'H'), some (.char 'D'), none⟩
    (.char 'H') (.char 'D') _ ['x', 'H', 'D', 'D']
    ⟨['x'], ['H', 'D', 'D'], [], [("header", ['H']), ("data", ['D', 'D'])]⟩
    rfl rfl rfl rfl (by decide) (by decide)

/-- C7 counterexample: the result of a successful detection carries no
identifier derived from the rule's storage name.  The same rule content
stored under two different file names (`cnv01.json` and `cnv99.json`)
produces identical results, and the returned value is just the parsed
rule record plus the captures — nothing in it depends on the name. -/
theorem C7_counterexample :
    load_rule (some [(cnv01name,
        .dict ⟨some (.char 'H'), some (.char 'D'), none⟩)]) ['H', 'D']
      = load_rule (some [(cnv99name,
        .dict ⟨some (.char 'H'), some (.char 'D'), none⟩)]) ['H', 'D'] ∧
    load_rule (some [(cnv01name,
        .dict ⟨some (.char 'H'), some (.char 'D'), none⟩)]) ['H', 'D']
      = .ok (⟨some (.char 'H'), some (.char 'D'), none⟩,
             [("header", ['H']), ("data", ['D'])]) :=
  ⟨by decide, by decide⟩

/-- C7 (amended): a successful detection returns the winning rule's
parsed record itself together with the capture mapping of its match
(`match.groupdict()`), and the result is invariant under renaming the
rule's storage file — no storage-name-derived identifier is part of the
result. -/
theorem C7_result_is_rule_and_captures (raw : List Char) (name name2 : List Char)
    (rule : RuleDict) (rx : Pattern) (m : MatchResult) (rest : List Entry)
    (hregex : buildRegex rule = .ok rx)
    (hmatch : search rx raw = some m) :
    tryRules raw ((name, .dict rule) :: rest) = .ok (rule, m.caps) ∧
    tryRules raw ((name, .dict rule) :: rest)
      = tryRules raw ((name2, .dict rule) :: rest) := by
  have h1 := @tryRules_cons_match raw name rule rx m rest hregex hmatch
  have h2 := @tryRules_cons_match raw name2 rule rx m rest hregex hmatch
  exact ⟨h1, h1.trans h2.symm⟩

/-- C7 witness for the amended claim, at a concrete rule and input. -/
theorem C7_result_is_rule_and_captures_witness :
    tryRules ['H', 'D'] [(cnv01name, .dict ⟨some (.char 'H'), some (.char 'D'), none⟩)]
      = .ok (⟨some (.char 'H'), some (.char 'D'), none⟩,
             [("header", ['H']), ("data", ['D'])]) ∧
    tryRules ['H', 'D'] [(cnv01name, .dict ⟨some (.char 'H'), some (.char 'D'), none⟩)]
      = tryRules ['H', 'D'] [(cnv99name, .dict ⟨some (.char 'H'), some (.char 'D'), none⟩)] :=
  C7_result_is_rule_and_captures ['H', 'D'] cnv01name cnv99name
    ⟨some (.char 'H'), some (.char 'D'), none⟩ _
    ⟨[], ['H', 'D'], [], [("header", ['H']), ("data", ['D'])]⟩ []
    rfl (by decide)

/-- C8: rule discovery selects exactly the entries whose name begins with
`"cnv"` and ends with `".json"`, orders them ascending by the
locale-independent lexicographic comparison of names, and never selects
the companion file `"refnames.json"` (it fails the `"cnv"` filter even
though it ends in `".json"`). -/
theorem C8_discovery_filter_and_order (entries : List Entry) :
    (∀ e ∈ ruleFiles entries,
        e ∈ entries ∧ startswith e.1 cnvLead = true ∧ endswith e.1 jsonTail = true) ∧
    (∀ e ∈ entries, startswith e.1 cnvLead = true → endswith e.1 jsonTail = true →
        e ∈ ruleFiles entries) ∧
    List.Sorted byName (ruleFiles entries) ∧
    (∀ fj, (refnamesName, fj) ∉ ruleFiles entries) := by
  refine ⟨?_, ?_, ruleFiles_sorted entries, ?_⟩
  · intro e he
    rw [mem_ruleFiles] at he
    obtain ⟨h1, h2⟩ := he
    rw [Bool.and_eq_true] at h2
    exact ⟨h1, h2.1, h2.2⟩
  · intro e he h1 h2
    rw [mem_ruleFiles]
    refine ⟨he, ?_⟩
    rw [Bool.and_eq_true]
    exact ⟨h1, h2⟩
  · intro fj hmem
    rw [mem_ruleFiles] at hmem
    have h2 : (startswith refnamesName cnvLead && endswith refnamesName jsonTail)
        = true := hmem.2
    exact absurd h2 (by decide)

/-- C8 witness: in a directory holding `refnames.json` and `cnv01.json`,
discovery selects the latter and never the former. -/
theorem C8_discovery_filter_and_order_witness :
    (cnv01name, FileJson.malformed) ∈
      ruleFiles [(refnamesName, FileJson.malformed), (cnv01name, FileJson.malformed)] ∧
    (refnamesName, FileJson.malformed) ∉
      ruleFiles [(refnamesName, FileJson.malformed), (cnv01name, FileJson.malformed)] :=
  ⟨(C8_discovery_filter_and_order _).2.1 (cnv01name, FileJson.malformed)
      (by decide) (by decide) (by decide),
   (C8_discovery_filter_and_order _).2.2.2 FileJson.malformed⟩

/-- C9: the compiled grammar is applied as an unanchored search, not a
full-input match: whenever the first discovered rule's grammar matches
anchored right after an arbitrary noise region, detection on
noise ++ body still succeeds and returns that rule. -/
theorem C9_unanchored_search (entries : List Entry) (noise body : List Char)
    (name1 : List Char) (rule1 : RuleDict) (rx1 : Pattern) (rest : List Entry)
    (horder : ruleFiles entries = (name1, .dict rule1) :: rest)
    (hregex : buildRegex rule1 = .ok rx1)
    (hmatch : matchTop rx1 body ≠ none) :
    ∃ caps, load_rule (some entries) (noise ++ body) = .ok (rule1, caps) := by
  have hs : (search rx1 (noise ++ body)).isSome = true := by
    apply search_isSome_of_offset noise.length
    have hdrop : (noise ++ body).drop noise.length = body := by simp
    rw [hdrop]
    exact hmatch
  obtain ⟨m, hm⟩ := Option.isSome_iff_exists.mp hs
  refine ⟨m.caps, ?_⟩
  rw [load_rule_some, horder]
  exact tryRules_cons_match rest hregex hm

/-- C9 witness: the input has two characters of leading noise the rule
does not model, yet the rule matches the subregion and detection
succeeds. -/
theorem C9_unanchored_search_witness :
    load_rule (some [(cnv01name, .dict ⟨some (.char 'H'), some (.char 'D'), none⟩)])
        (['x', '!'] ++ ['H', 'D'])
      = .ok (⟨some (.char 'H'), some (.char 'D'), none⟩,
             [("header", ['H']), ("data", ['D'])]) := by
  obtain ⟨caps, hc⟩ := C9_unanchored_search
    [(cnv01name, .dict ⟨some (.char 'H'), some (.char 'D'), none⟩)] ['x', '!'] ['H', 'D']
    cnv01name ⟨some (.char 'H'), some (.char 'D'), none⟩ _ []
    (by decide) rfl (by decide)
  have heval : load_rule
      (some [(cnv01name, .dict ⟨some (.char 'H'), some (.char 'D'), none⟩)])
      (['x', '!'] ++ ['H', 'D'])
      = .ok (⟨some (.char 'H'), some (.char 'D'), none⟩,
             [("header", ['H']), ("data", ['D'])]) := by decide
  rw [hc] at heval
  have hcaps : caps = [("header", ['H']), ("data", ['D'])] :=
    congrArg Prod.snd (Except.ok.inj heval)
  rw [hcaps] at hc
  exact hc

/-- C10: for a rule without `sep` (whose header pattern does not itself
define a group named `"data"`), the `"header"` and `"data"` captures of
any successful match are adjacent: the matched span is exactly their
concatenation, and in the input the data capture begins exactly where the
header capture ends. -/
theorem C10_adjacent_captures (rule : RuleDict) (hp dp rx : Pattern)
    (raw : List Char) (m : MatchResult) (u v : List Char)
    (hh : rule.header = some hp) (hd : rule.data = some dp)
    (hsep : rule.sep = none)
    (hrx : buildRegex rule = .ok rx) (hm : search rx raw = some m)
    (hdup : "data" ∉ hp.groupNames)
    (hu : List.lookup "header" m.caps = some u)
    (hv : List.lookup "data" m.caps = some v) :
    m.matched = u ++ v ∧ raw = m.pre ++ (u ++ v) ++ m.rest := by
  have hrx2 : rx = .concat (.group "header" hp) (.group "data" (Pattern.plus dp)) := by
    simp [buildRegex, hsep, hh, hd] at hrx
    exact hrx.symm
  subst hrx2
  obtain ⟨u2, v2, h1, h2, h3, h4⟩ := search_nonsep_lookup hm hdup
  have hu2 : u2 = u := Option.some.inj (h1.symm.trans hu)
  have hv2 : v2 = v := Option.some.inj (h2.symm.trans hv)
  rw [hu2, hv2] at h3 h4
  exact ⟨h3, h4⟩

/-- C10 witness: on input `"xHDD"` the concrete no-`sep` rule captures
header `"H"` and data `"DD"`, adjacent and jointly the matched span. -/
theorem C10_adjacent_captures_witness :
    (['H', 'D', 'D'] : List Char) = ['H'] ++ ['D', 'D'] ∧
    (['x', 'H', 'D', 'D'] : List Char) = ['x'] ++ (['H'] ++ ['D', 'D']) ++ [] :=
  C10_adjacent_captures ⟨some (.char 'H'), some (.char 'D'), none⟩
    (.char 'H') (.char 'D') _ ['x', 'H', 'D', 'D']
    ⟨['x'], ['H', 'D', 'D'], [], [("header", ['H']), ("data", ['D', 'D'])]⟩
    ['H'] ['D', 'D'] rfl rfl rfl rfl (by decide) (by decide) (by decide) (by decide)

end Seabird
